import Mathlib

/-!
A verification development for a backgammon engine consisting of a core
rules engine (`engine_core.py`), a minimax AI (`ai_minimax.py`) and a
fuzzy-logic AI (`ai_fuzzy.py`).

The 28-slot board (`points: List[Point]`, indices 0..27, always of length
28) is modelled as a total function `Fin 28 → Point`.  Out-of-range index
accesses never occur on the code paths modelled here, so `Board.get`
returns an empty point outside 0..27.  Python operations that can raise
(`Point.add`, `Point.remove`, `apply_single_move`) are modelled as
`Option`-valued functions where `none` stands for the raised exception.
Python `int` arithmetic on board indices is carried out in `ℤ` where
intermediate values can be negative, and in `ℕ` elsewhere.
-/

/-- `Player` enum from `engine_core.py`: WHITE moves 24 → 1, BLACK 1 → 24. -/
inductive Player where
  | WHITE
  | BLACK
deriving DecidableEq, Repr, Fintype

/-- `opponent` from `engine_core.py`. -/
def opponent (p : Player) : Player :=
  match p with
  | Player.WHITE => Player.BLACK
  | Player.BLACK => Player.WHITE

/-- `Move` dataclass: start and end pocket indices plus the die used. -/
structure Move where
  start : Nat
  stop : Nat
  die : Nat
deriving DecidableEq, Repr

/-- `TurnRoute` dataclass: an ordered list of moves for one turn. -/
structure TurnRoute where
  moves : List Move
deriving DecidableEq, Repr

/-- `Point` dataclass: a pocket holding `checkers` checkers of `owner`. -/
structure Point where
  checkers : Nat := 0
  owner : Option Player := none
deriving DecidableEq, Repr

/-- `Point.add`: adding `n` checkers of `owner`; adding to an
opponent-owned point raises (`none`). -/
def Point.add (pt : Point) (owner : Player) (n : Nat) : Option Point :=
  match pt.owner with
  | none => some { checkers := n, owner := some owner }
  | some q => if q = owner then some { pt with checkers := pt.checkers + n } else none

/-- `Point.remove`: removing `n` checkers; raises (`none`) when fewer than
`n` are present; the owner is cleared when the point empties. -/
def Point.remove (pt : Point) (n : Nat) : Option Point :=
  if pt.checkers < n then none
  else some { checkers := pt.checkers - n,
              owner := if pt.checkers - n = 0 then none else pt.owner }

/-- `Board` dataclass: the fixed array of 28 pockets. -/
structure Board where
  points : Fin 28 → Point

/-- Read pocket `i` (all modelled accesses satisfy `i < 28`). -/
def Board.get (b : Board) (i : Nat) : Point :=
  if h : i < 28 then b.points ⟨i, h⟩ else {}

/-- Write pocket `i` (in-place mutation of `board.points[i]`). -/
def Board.set (b : Board) (i : Nat) (pt : Point) : Board :=
  if h : i < 28 then ⟨Function.update b.points ⟨i, h⟩ pt⟩ else b

/-- `Board.bar_index`. -/
def Board.barIndex (p : Player) : Nat :=
  if p = Player.WHITE then 0 else 26

/-- `Board.off_index`. -/
def Board.offIndex (p : Player) : Nat :=
  if p = Player.WHITE then 25 else 27

/-- `Board.dir`: movement direction along pockets 1..24. -/
def Board.dir (p : Player) : Int :=
  if p = Player.WHITE then -1 else 1

/-- `Board.home_range`: `range(1,7)` for WHITE, `range(19,25)` for BLACK. -/
def Board.homeRange (p : Player) (i : Nat) : Bool :=
  if p = Player.WHITE then decide (1 ≤ i ∧ i < 7) else decide (19 ≤ i ∧ i < 25)

/-- The all-empty board (`Board()` before any setup). -/
def emptyBoard : Board := ⟨fun _ => {}⟩

/-- The `put` helper of `Board.standard_setup`: `b.points[idx].add(owner, n)`
(always succeeds during setup; on failure the board is left unchanged). -/
def Board.put (b : Board) (idx : Nat) (n : Nat) (owner : Player) : Board :=
  match (b.get idx).add owner n with
  | some pt => b.set idx pt
  | none => b

/-- `Board.standard_setup`. -/
def standardSetup : Board :=
  ((((((((emptyBoard.put 24 2 Player.WHITE).put 13 5 Player.WHITE).put
      8 3 Player.WHITE).put 6 5 Player.WHITE).put
      1 2 Player.BLACK).put 12 5 Player.BLACK).put
      17 3 Player.BLACK).put 19 5 Player.BLACK)

/-- `Board.is_blocked_for`: a board point owned by the opponent with ≥ 2
checkers (bar/off and out-of-range indices are never blocked). -/
def Board.isBlockedFor (b : Board) (idx : Nat) (p : Player) : Bool :=
  decide ((1 ≤ idx ∧ idx ≤ 24) ∧
    (b.get idx).owner = some (opponent p) ∧ 2 ≤ (b.get idx).checkers)

/-- `Board.can_hit`: a board point owned by the opponent with exactly one
checker (a blot). -/
def Board.canHit (b : Board) (idx : Nat) (p : Player) : Bool :=
  decide ((1 ≤ idx ∧ idx ≤ 24) ∧
    (b.get idx).owner = some (opponent p) ∧ (b.get idx).checkers = 1)

/-- `Board.all_in_home`: every checker of `p` sits in `p`'s home quadrant
or off-tray. -/
def Board.allInHome (b : Board) (p : Player) : Bool :=
  decide (∀ i : Fin 28, (b.points i).owner = some p →
    Board.homeRange p i.val = true ∨ i.val = Board.offIndex p)

/-- `Board.count_on_bar` (engine_core): checkers on `p`'s own bar slot. -/
def Board.countOnBar (b : Board) (p : Player) : Nat :=
  (b.get (Board.barIndex p)).checkers

/-- `Board.count_off` (engine_core): checkers on `p`'s own off-tray slot. -/
def Board.countOff (b : Board) (p : Player) : Nat :=
  (b.get (Board.offIndex p)).checkers

/-- `legal_single_targets`: the legal `(die, end)` pairs for a single
checker move of `player` from `start_idx` given the remaining dice. -/
def legalSingleTargets (b : Board) (player : Player) (startIdx : Nat)
    (dice : List Nat) : List (Nat × Nat) :=
  -- If you have pieces on bar, you must enter from bar.
  if b.countOnBar player > 0 ∧ startIdx ≠ Board.barIndex player then []
  else
    let bar := Board.barIndex player
    let off := Board.offIndex player
    let dir := Board.dir player
    if startIdx = bar then
      -- From BAR: WHITE enters at 25-d, BLACK at d.
      dice.filterMap (fun (d : Nat) =>
        let e : Int := if player = Player.WHITE then 25 - (d : Int) else (d : Int)
        if 1 ≤ e ∧ e ≤ 24 ∧ ¬ b.isBlockedFor e.toNat player
        then some (d, e.toNat) else none)
    else if ¬ (1 ≤ startIdx ∧ startIdx ≤ 24) then []
    else if (b.get startIdx).owner ≠ some player ∨ (b.get startIdx).checkers = 0 then []
    else
      dice.filterMap (fun (d : Nat) =>
        let e : Int := (startIdx : Int) + dir * (d : Int)
        -- Bearing off?
        if (player = Player.WHITE ∧ e < 1) ∨ (player = Player.BLACK ∧ 24 < e) then
          (if b.allInHome player then some (d, off) else none)
        -- Normal move
        else if 1 ≤ e ∧ e ≤ 24 ∧ ¬ b.isBlockedFor e.toNat player
        then some (d, e.toNat) else none)

/-- `apply_single_move`: mutates the board for one checker move; `none`
models the `ValueError`/`RuntimeError` paths. -/
def applySingleMove (b : Board) (player : Player) (start stop : Nat) :
    Option Board := do
  let off := Board.offIndex player
  -- remove one from the start
  let p1 ← (b.get start).remove 1
  let b := b.set start p1
  -- bearing off
  if stop = off then
    let p2 ← (b.get off).add player 1
    return b.set off p2
  else
    -- handle hits
    let b ←
      if b.canHit stop player then do
        let opp := opponent player
        let oppBar := Board.barIndex opp
        let pe ← (b.get stop).remove 1
        let b := b.set stop pe
        let pb ← (b.get oppBar).add opp 1
        pure (b.set oppBar pb)
      else pure b
    -- place on destination
    let pt := b.get stop
    if pt.owner = none ∨ pt.owner = some player then
      let pt2 ← pt.add player 1
      return b.set stop pt2
    else
      none

/-- Search key recorded in `used_mask`: `(start, end, die, tuple(sorted(remaining)))`. -/
abbrev RouteKey := Nat × Nat × Nat × List Nat

/-- One backtracking step state: `(used_mask, used_any, routes collected)`. -/
abbrev BTState := List RouteKey × Bool × List TurnRoute

/-- The de-dup step of `generate_all_routes`: Python inserts each route
into a dict keyed by its `(start, end, die)` sequence, so equal move
sequences collapse to the first occurrence's position. -/
def dedupRoutes (rs : List TurnRoute) : List TurnRoute :=
  rs.foldl (fun acc r => if r ∈ acc then acc else acc ++ [r]) []

/-- State-threaded form of `legal_single_targets`, making the frame
property checkable: alongside its result it returns the board object as
the function leaves it.  The body mirrors the source, which only ever
reads the board, so every return site pairs the result with the board it
received. -/
def legalSingleTargetsTr (b : Board) (player : Player) (startIdx : Nat)
    (dice : List Nat) : List (Nat × Nat) × Board :=
  if b.countOnBar player > 0 ∧ startIdx ≠ Board.barIndex player then ([], b)
  else
    let bar := Board.barIndex player
    let off := Board.offIndex player
    let dir := Board.dir player
    if startIdx = bar then
      (dice.filterMap (fun (d : Nat) =>
        let e : Int := if player = Player.WHITE then 25 - (d : Int) else (d : Int)
        if 1 ≤ e ∧ e ≤ 24 ∧ ¬ b.isBlockedFor e.toNat player
        then some (d, e.toNat) else none), b)
    else if ¬ (1 ≤ startIdx ∧ startIdx ≤ 24) then ([], b)
    else if (b.get startIdx).owner ≠ some player ∨
        (b.get startIdx).checkers = 0 then ([], b)
    else
      (dice.filterMap (fun (d : Nat) =>
        let e : Int := (startIdx : Int) + dir * (d : Int)
        if (player = Player.WHITE ∧ e < 1) ∨ (player = Player.BLACK ∧ 24 < e) then
          (if b.allInHome player then some (d, off) else none)
        else if 1 ≤ e ∧ e ≤ 24 ∧ ¬ b.isBlockedFor e.toNat player
        then some (d, e.toNat) else none), b)

/-- State-threaded form of the `backtrack` inner function of
`generate_all_routes`: the board variable `b` of each call is threaded
through both loops and returned; single moves are applied only to the
clone `b2`, whose final state is discarded when the recursive call
returns, exactly as in the source. -/
def backtrackTr (player : Player) (fuel : Nat) (b : Board)
    (remaining : List Nat) (acc : List Move) :
    Option (List TurnRoute × Board) :=
  if remaining = [] then some ([⟨acc⟩], b)
  else
    match fuel with
    | 0 => some ([], b)
    | fuel' + 1 =>
      let sortedRem := List.insertionSort (· ≤ ·) remaining
      let starts :=
        if b.countOnBar player > 0 then [Board.barIndex player]
        else List.range' 1 24
      do
      let (st, b) ← starts.foldlM (fun (sb : BTState × Board) start => do
        let (st, b) := sb
        let cands := remaining.flatMap
          (fun d => (legalSingleTargetsTr b player start [d]).1)
        cands.foldlM (fun (sb : BTState × Board) (de : Nat × Nat) => do
          let (st, b) := sb
          let (die, e) := de
          let (mask, usedAny, routes) := st
          let key : RouteKey := (start, e, die, sortedRem)
          if key ∈ mask then
            pure ((mask, usedAny, routes), b)
          else do
            let b2 := b
            let b2 ← applySingleMove b2 player start e
            let rem := remaining.erase die
            let (rs, _) ← backtrackTr player fuel' b2 rem (acc ++ [⟨start, e, die⟩])
            pure ((key :: mask, true, routes ++ rs), b)) (st, b)) (([], false, []), b)
      let (_, usedAny, routes) := st
      if usedAny then pure (routes, b) else pure (routes ++ [⟨acc⟩], b)

/-- State-threaded form of `generate_all_routes`. -/
def generateAllRoutesTr (b : Board) (player : Player) (dice : List Nat) :
    Option (List TurnRoute × Board) := do
  let (rs, b) ← backtrackTr player dice.length b dice []
  pure (dedupRoutes rs, b)


/-- `generate_all_routes`: all distinct legal full-turn routes (the
result component of the state-threaded run). -/
def generateAllRoutes (b : Board) (player : Player) (dice : List Nat) :
    Option (List TurnRoute) :=
  (generateAllRoutesTr b player dice).map (fun rb => rb.1)

/-- Build a board from an association list of pocket contents. -/
def boardOfList (l : List (Nat × Point)) : Board :=
  l.foldl (fun b ip => b.set ip.1 ip.2) emptyBoard


/-- A position refuting maximal dice usage: WHITE has checkers on 8 and 24,
BLACK holds an anchor on 18.  With dice `[6, 3]`, playing 8→5 with the 3
first strands the 6 (5→off needs all-in-home, 24→18 is blocked), while
other orderings consume both dice. -/
def c1Board : Board :=
  boardOfList [(8, ⟨1, some Player.WHITE⟩), (24, ⟨1, some Player.WHITE⟩),
               (18, ⟨2, some Player.BLACK⟩)]

/-- `Engine` state: board, side to move, remaining dice for the turn. -/
structure EngineSt where
  board : Board
  turn : Player
  dice : List Nat

/-- `Engine.__init__` / `Engine.new_game`. -/
def engineInit : EngineSt := ⟨standardSetup, Player.WHITE, []⟩

/-- `roll_dice` with the two random 1..6 draws supplied explicitly. -/
def rollDice (draw : Nat × Nat) : List Nat :=
  if draw.1 = draw.2 then [draw.1, draw.2, draw.1, draw.2] else [draw.1, draw.2]

/-- `Engine.generate_routes`. -/
def EngineSt.generateRoutes (st : EngineSt) : Option (List TurnRoute) :=
  generateAllRoutes st.board st.turn st.dice

/-- `self.dice.remove(m.die)` wrapped in `try/except ValueError: pass`:
the first occurrence is removed, or the list is returned unchanged when
the value is absent. -/
def diceRemove (dice : List Nat) (d : Nat) : List Nat :=
  if d ∈ dice then dice.erase d else dice

/-- One iteration of the `Engine.apply_route` loop: mutate the board for
move `m`, then best-effort-remove its die from the active dice. -/
def applyRouteStep (st : EngineSt) (m : Move) : Option EngineSt := do
  let b2 ← applySingleMove st.board st.turn m.start m.stop
  pure { board := b2, turn := st.turn, dice := diceRemove st.dice m.die }

/-- `Engine.apply_route`. -/
def EngineSt.applyRoute (st : EngineSt) (route : TurnRoute) : Option EngineSt :=
  route.moves.foldlM applyRouteStep st

/-- `Engine.end_turn`. -/
def EngineSt.endTurn (st : EngineSt) : EngineSt :=
  { board := st.board, turn := opponent st.turn, dice := [] }

/-- `Engine.has_won`: `count_off(p) >= 15`. -/
def EngineSt.hasWon (st : EngineSt) (p : Player) : Bool :=
  15 ≤ st.board.countOff p

/-- `EvalWeights` from `ai_minimax.py` (floats modelled as exact rationals). -/
structure EvalWeights where
  pip_weight : ℚ := -0.9
  blot_weight : ℚ := -0.8
  anchor_weight : ℚ := 0.6
  bar_penalty : ℚ := -1.2
  opp_bar_pressure : ℚ := 0.7
  home_progress : ℚ := 0.6
  borne_off_weight : ℚ := 1.1
  blockade_weight : ℚ := 0.4
deriving Repr

/-- `DEFAULT_WEIGHTS`. -/
def defaultWeights : EvalWeights := {}

namespace Evaluator

/-- `Evaluator.pip_count`. -/
def pipCount (b : Board) (me : Player) : Nat :=
  ∑ i : Fin 28,
    if (b.points i).owner = some me ∧ 1 ≤ i.val ∧ i.val ≤ 24 then
      (if me = Player.WHITE then i.val else 25 - i.val) * (b.points i).checkers
    else 0

/-- `Evaluator.blot_count`. -/
def blotCount (b : Board) (me : Player) : Nat :=
  ∑ i : Fin 28,
    if (b.points i).owner = some me ∧ (b.points i).checkers = 1 ∧
        1 ≤ i.val ∧ i.val ≤ 24 then 1 else 0

/-- `Evaluator.anchor_count`. -/
def anchorCount (b : Board) (me : Player) : Nat :=
  ∑ i : Fin 28,
    if (b.points i).owner = some me ∧ 2 ≤ (b.points i).checkers ∧
        1 ≤ i.val ∧ i.val ≤ 24 then 1 else 0

/-- `Evaluator.count_on_bar`: reads `points[0]` for WHITE and `points[25]`
for BLACK (the literal indices of the source, which for BLACK is WHITE's
off-tray, not BLACK's bar slot 26). -/
def countOnBar (b : Board) (p : Player) : Nat :=
  (b.get (if p = Player.WHITE then 0 else 25)).checkers

/-- `Evaluator.count_borne_off`: reads `points[25]` for WHITE and
`points[0]` for BLACK (the literal indices of the source, which for BLACK
is WHITE's bar, not BLACK's off-tray slot 27). -/
def countBorneOff (b : Board) (p : Player) : Nat :=
  (b.get (if p = Player.WHITE then 25 else 0)).checkers

/-- `Evaluator.home_progress` (the source's `off_idx` is `25` for WHITE
and `0` for BLACK). -/
def homeProgress (b : Board) (me : Player) : ℚ :=
  let offIdx : Nat := if me = Player.WHITE then 25 else 0
  let total : Nat := ∑ i : Fin 28,
    if (b.points i).owner = some me then (b.points i).checkers else 0
  let inside : Nat := ∑ i : Fin 28,
    if (b.points i).owner = some me ∧
        (Board.homeRange me i.val = true ∨ i.val = offIdx) then
      (b.points i).checkers
    else 0
  if total ≠ 0 then (inside : ℚ) / (total : ℚ) else 1

/-- `Evaluator.blockade_score`: runs of own points with ≥ 2 checkers over
1..24, each extension adding `0.5 * run`. -/
def blockadeScore (b : Board) (me : Player) : ℚ :=
  ((List.range' 1 24).foldl (fun (sr : ℚ × Nat) i =>
    if (b.get i).owner = some me ∧ 2 ≤ (b.get i).checkers then
      (sr.1 + (1 / 2) * (sr.2 + 1 : ℚ), sr.2 + 1)
    else (sr.1, 0)) (0, 0)).1

/-- `Evaluator.evaluate`. -/
def evaluate (b : Board) (sideToMove : Player) (w : EvalWeights) : ℚ :=
  let me := sideToMove
  let opp := opponent me
  let score : ℚ :=
    w.pip_weight * pipCount b me + (-w.pip_weight) * pipCount b opp
  let score := score + w.blot_weight * blotCount b me +
    (-w.blot_weight) * blotCount b opp
  let score := score + w.anchor_weight * ((anchorCount b me : ℚ) - anchorCount b opp)
  let score := score + w.bar_penalty * countOnBar b me +
    w.opp_bar_pressure * countOnBar b opp
  let score := score + w.home_progress * (homeProgress b me - homeProgress b opp)
  let score := score +
    w.borne_off_weight * ((countBorneOff b me : ℚ) - countBorneOff b opp)
  let score := score + w.blockade_weight * (blockadeScore b me - blockadeScore b opp)
  score

end Evaluator

namespace Fuzzy

/-- `ai_fuzzy.on_bar`: same literal indices as the minimax evaluator
(`points[0]` for WHITE, `points[25]` for BLACK). -/
def onBar (b : Board) (p : Player) : Nat :=
  (b.get (if p = Player.WHITE then 0 else 25)).checkers

/-- `ai_fuzzy.borne_off`: `points[25]` for WHITE, `points[0]` for BLACK. -/
def borneOff (b : Board) (p : Player) : Nat :=
  (b.get (if p = Player.WHITE then 25 else 0)).checkers

/-- The `1e-9` guard used in the membership ramps and the defuzzification
denominator (floats modelled as exact rationals). -/
def eps : ℚ := 1 / 1000000000

/-- `tri(x, a, b, c)`: triangular membership. -/
def tri (x a b c : ℚ) : ℚ :=
  if x ≤ a ∨ c ≤ x then 0
  else if x = b then 1
  else if x < b then (x - a) / (b - a + eps)
  else (c - x) / (c - b + eps)

/-- `trap(x, a, b, c, d)`: trapezoidal membership. -/
def trap (x a b c d : ℚ) : ℚ :=
  if x ≤ a ∨ d ≤ x then 0
  else if b ≤ x ∧ x ≤ c then 1
  else if a < x ∧ x < b then (x - a) / (b - a + eps)
  else (d - x) / (d - c + eps)

/-- `RouteFeatures` dataclass (int fields as `ℤ`, float fields as `ℚ`). -/
structure RouteFeatures where
  pip_gain : ℚ
  hits : ℤ
  blots_after : ℤ
  anchors_after : ℤ
  my_bar_after : ℤ
  opp_bar_after : ℤ
  home_progress_after : ℚ
  borne_off_after : ℤ
deriving DecidableEq, Repr

/-- `FuzzyWeights`: the three output centers. -/
structure FuzzyWeights where
  out_centers : ℚ × ℚ × ℚ := (0.2, 0.5, 0.85)
deriving Repr

/-- `DEFAULT_OUT`. -/
def defaultOut : FuzzyWeights := {}

/-- The "Good" output-category activation of `fuzzy_score`: the max over
its six rules, each the min of the memberships the source combines. -/
def gAct (f : RouteFeatures) : ℚ :=
  let pip_m := tri f.pip_gain 2 6 10
  let pip_l := tri f.pip_gain 8 14 22
  let hit_1 := tri (f.hits : ℚ) 0.5 1 1.5
  let hit_mn := tri (f.hits : ℚ) 1.5 2 3.5
  let bl_l := tri (f.blots_after : ℚ) (-0.5) 0 2
  let an_h := tri (f.anchors_after : ℚ) 3 4 6
  let opb_mn := tri (f.opp_bar_after : ℚ) 2 3 6
  let hm_h := tri f.home_progress_after 0.65 0.85 1.01
  let off_h := tri (f.borne_off_after : ℚ) 8 11 15.5
  let g : ℚ := 0
  let g := max g (min pip_l (min bl_l an_h))
  let g := max g (min hit_1 (min bl_l pip_m))
  let g := max g (min hit_mn bl_l)
  let g := max g (min hm_h bl_l)
  let g := max g (min off_h bl_l)
  let g := max g (min opb_mn bl_l)
  g

/-- The "Okay" output-category activation of `fuzzy_score`. -/
def oAct (f : RouteFeatures) : ℚ :=
  let pip_s := tri f.pip_gain (-2) 0 4
  let pip_m := tri f.pip_gain 2 6 10
  let hit_1 := tri (f.hits : ℚ) 0.5 1 1.5
  let bl_m := tri (f.blots_after : ℚ) 1 3 5
  let an_m := tri (f.anchors_after : ℚ) 1 2 3.5
  let hm_m := tri f.home_progress_after 0.30 0.50 0.70
  let off_m := tri (f.borne_off_after : ℚ) 2 5 9
  let o : ℚ := 0
  let o := max o (min pip_m bl_m)
  let o := max o (min hit_1 bl_m)
  let o := max o (min an_m pip_s)
  let o := max o (min hm_m bl_m)
  let o := max o (min off_m bl_m)
  o

/-- The "Poor" output-category activation of `fuzzy_score`. -/
def pAct (f : RouteFeatures) : ℚ :=
  let pip_s := tri f.pip_gain (-2) 0 4
  let hit_z := trap (f.hits : ℚ) (-0.5) 0 0 0.5
  let bl_h := tri (f.blots_after : ℚ) 4 7 12
  let myb_s := tri (f.my_bar_after : ℚ) 0.5 1 2.5
  let myb_mn := tri (f.my_bar_after : ℚ) 2 3 6
  let p : ℚ := 0
  let p := max p (min bl_h pip_s)
  let p := max p (min myb_s pip_s)
  let p := max p (min myb_mn 1)
  let p := max p (min hit_z bl_h)
  p

/-- `fuzzy_score`: centroid defuzzification of the three category
activations over the output centers, with the `1e-9` epsilon added to the
denominator. -/
def fuzzyScore (f : RouteFeatures) (outCenters : FuzzyWeights) : ℚ :=
  let g := gAct f
  let o := oAct f
  let p := pAct f
  let (cP, cO, cG) := outCenters.out_centers
  let num := p * cP + o * cO + g * cG
  let den := (p + o + g) + eps
  num / den

end Fuzzy

/-- A feature vector activating exactly one rule, with tiny strength:
`home_progress_after` is just above the 0.65 foot of the `hm_h`
membership, everything else is inert. -/
def c5Feat : Fuzzy.RouteFeatures :=
  ⟨-2, 0, 0, 0, 0, 0, 13 / 20 + 1 / 100000000000, 0⟩


/-- A board with: WHITE bar (slot 0) = 1, WHITE off (slot 25) = 4,
BLACK bar (slot 26) = 3, BLACK off (slot 27) = 2. -/
def c2Board : Board :=
  boardOfList [(0, ⟨1, some Player.WHITE⟩), (25, ⟨4, some Player.WHITE⟩),
               (26, ⟨3, some Player.BLACK⟩), (27, ⟨2, some Player.BLACK⟩)]

/-- The checkers pocket `pt` contributes to player `q`'s total. -/
def contrib (pt : Point) (q : Player) : Nat :=
  if pt.owner = some q then pt.checkers else 0

/-- Player `q`'s total checker count over all 28 pockets. -/
def totalFor (b : Board) (q : Player) : Nat :=
  ∑ i : Fin 28, contrib (b.points i) q

/-- The per-point invariant of the spec: `checkers == 0 ⇔ owner == none`
(single ownership is already structural in the `Point` representation). -/
def pointInvP (pt : Point) : Prop :=
  pt.checkers = 0 ↔ pt.owner = none

instance (pt : Point) : Decidable (pointInvP pt) :=
  inferInstanceAs (Decidable (_ ↔ _))

/-- The board-wide point invariant. -/
def pointInv (b : Board) : Prop :=
  ∀ i : Fin 28, pointInvP (b.points i)

instance (b : Board) : Decidable (pointInv b) :=
  inferInstanceAs (Decidable (∀ _, _))

/-- Bar and off-tray slots hold only their own player's checkers. -/
def barOffOwn (b : Board) : Prop :=
  ∀ p : Player,
    ((b.get (Board.barIndex p)).owner = none ∨
      (b.get (Board.barIndex p)).owner = some p) ∧
    ((b.get (Board.offIndex p)).owner = none ∨
      (b.get (Board.offIndex p)).owner = some p)

instance (b : Board) : Decidable (barOffOwn b) :=
  inferInstanceAs (Decidable (∀ _, _))

/-- The combined state invariant of reachable boards. -/
def SInv (b : Board) : Prop :=
  pointInv b ∧ (∀ q : Player, totalFor b q = 15) ∧ barOffOwn b

/-- One legal single move by some player transforms `b` into `b2`. -/
def LegalStep (b b2 : Board) : Prop :=
  ∃ (p : Player) (s : Nat) (dice : List Nat) (d e : Nat),
    (d, e) ∈ legalSingleTargets b p s dice ∧ applySingleMove b p s e = some b2

/-- Boards reachable from the standard setup by legal single moves. -/
inductive Reachable : Board → Prop where
  | base : Reachable standardSetup
  | step {b b2 : Board} : Reachable b → LegalStep b b2 → Reachable b2

/-- A board meeting the 15-checkers-per-player hypothesis of the
conservation claim, but with a BLACK checker sitting on WHITE's bar
slot 0: WHITE 15 on point 24, BLACK 1 on slot 0 and 14 on point 19. -/
def c3Board : Board :=
  boardOfList [(0, ⟨1, some Player.BLACK⟩), (24, ⟨15, some Player.WHITE⟩),
               (19, ⟨14, some Player.BLACK⟩)]

/-- Extended score values: `-math.inf`, a finite score, `+math.inf`. -/
inductive XScore where
  | ninf
  | fin (q : ℚ)
  | pinf
deriving DecidableEq, Repr

namespace XScore

/-- Negation (`-score`), as used by the negamax convention. -/
def neg : XScore → XScore
  | ninf => pinf
  | fin q => fin (-q)
  | pinf => ninf

/-- Strict `<` on extended scores. -/
def blt : XScore → XScore → Bool
  | ninf, ninf => false
  | ninf, _ => true
  | fin _, ninf => false
  | fin a, fin b => a < b
  | fin _, pinf => true
  | pinf, _ => false

/-- Python `max` (first argument wins ties). -/
def bmax (a b : XScore) : XScore := if blt a b then b else a

/-- Python `min` (first argument wins ties). -/
def bmin (a b : XScore) : XScore := if blt b a then b else a

/-- `math.isclose` with `rel_tol=1e-9`, `abs_tol=0.0`; equal infinities
are close, anything else involving an infinity is not. -/
def isclose : XScore → XScore → Bool
  | fin x, fin y => |x - y| ≤ max ((1 / 1000000000) * max |x| |y|) 0
  | a, b => a = b

end XScore

/-- The stream of randomness consumed by the search: dice draws for
`engine.roll()` and coin flips for `random.random() < 0.5`. -/
structure Rng where
  rolls : List (Nat × Nat)
  coins : List Bool
deriving DecidableEq, Repr

/-- Draw the next pair of dice (defaulting to (1, 1) on exhaustion). -/
def Rng.nextRoll : Rng → (Nat × Nat) × Rng
  | ⟨[], cs⟩ => ((1, 1), ⟨[], cs⟩)
  | ⟨d :: ds, cs⟩ => (d, ⟨ds, cs⟩)

/-- Draw the next tie-break coin (defaulting to `false` on exhaustion). -/
def Rng.nextCoin : Rng → Bool × Rng
  | ⟨ds, []⟩ => (false, ⟨ds, []⟩)
  | ⟨ds, c :: cs⟩ => (c, ⟨ds, cs⟩)

/-- `_apply_route_on_clone`: deep-copy the engine, apply the route, end
the turn. -/
def applyRouteOnClone (st : EngineSt) (r : TurnRoute) : Option EngineSt :=
  (st.applyRoute r).map EngineSt.endTurn

/-- `_opponent_roll`: deep-copy the engine and roll its dice. -/
def opponentRoll (st : EngineSt) (rng : Rng) : EngineSt × Rng :=
  let (draw, rng2) := rng.nextRoll
  ({ st with dice := rollDice draw }, rng2)

/-- `_terminal_eval`: static evaluation of the current board for the side
to move. -/
def terminalEval (st : EngineSt) (evalFn : Board → Player → ℚ) : ℚ :=
  evalFn st.board st.turn

/-- The `for oroute in opp_routes` loop of `minimax`, with its running
state `(worst_for_me, worst_reply_line, beta)` made explicit; `beta` is
the enclosing function's local, so its updates are returned to the outer
loop.  `recurse` is the recursive `minimax` call. -/
def oppLoop
    (recurse : EngineSt → Nat → XScore → XScore → Rng →
      Option (XScore × List TurnRoute × Rng))
    (afterOppRoll : EngineSt) (depth : Nat) (r : TurnRoute) :
    List TurnRoute → XScore → XScore → XScore → List TurnRoute → Rng →
    Option (XScore × List TurnRoute × XScore × Rng)
  | [], _, beta, worst, worstLine, rng => some (worst, worstLine, beta, rng)
  | oroute :: rest, alpha, beta, worst, worstLine, rng => do
    let afterOpp ← applyRouteOnClone afterOppRoll oroute
    let (afterOpp, rng) :=
      if 0 < depth - 2 then opponentRoll afterOpp rng else (afterOpp, rng)
    let (sc0, subline, rng) ← recurse afterOpp (depth - 2) beta.neg alpha.neg rng
    let sc := sc0.neg
    let (worst2, worstLine2) :=
      if XScore.blt sc worst then (sc, [r, oroute] ++ subline)
      else (worst, worstLine)
    let beta2 := XScore.bmin beta worst2.neg
    if ¬ XScore.blt alpha beta2 then
      some (worst2, worstLine2, beta2, rng)
    else
      oppLoop recurse afterOppRoll depth r rest alpha beta2 worst2 worstLine2 rng

/-- The `for r in routes` loop of `minimax`, with its running state
`(alpha, beta, best_score, best_line)` made explicit. -/
def rootLoop
    (recurse : EngineSt → Nat → XScore → XScore → Rng →
      Option (XScore × List TurnRoute × Rng))
    (evalFn : Board → Player → ℚ) (st : EngineSt) (depth : Nat) :
    List TurnRoute → XScore → XScore → XScore → List TurnRoute → Rng →
    Option (XScore × List TurnRoute × Rng)
  | [], _, _, best, bestLine, rng => some (best, bestLine, rng)
  | r :: rest, alpha, beta, best, bestLine, rng => do
    let afterMy ← applyRouteOnClone st r
    let (afterOppRoll, rng) := opponentRoll afterMy rng
    let oppRoutes ← afterOppRoll.generateRoutes
    let (score, line, beta, rng) ←
      if oppRoutes = [] ∨ depth - 1 = 0 then
        some (XScore.fin (terminalEval afterOppRoll evalFn), [r], beta, rng)
      else
        oppLoop recurse afterOppRoll depth r oppRoutes alpha beta
          XScore.pinf [] rng
    let (better, rng) :=
      if XScore.blt best score then (true, rng)
      else if XScore.isclose score best then rng.nextCoin
      else (false, rng)
    let best2 := if better then score else best
    let bestLine2 := if better then line else bestLine
    let alpha2 := XScore.bmax alpha best2
    if ¬ XScore.blt alpha2 beta then
      some (best2, bestLine2, rng)
    else
      rootLoop recurse evalFn st depth rest alpha2 beta best2 bestLine2 rng

/-- The recursive body of `minimax`.  The recursion descends by two depth
units per ply pair, so it is driven by a `fuel` argument that `minimax`
sets to `depth + 1`; the `fuel = 0` case is unreachable.  The
`SearchDebug` counters are not modelled (they never influence the
returned score or line); `none` models a propagated exception. -/
def minimaxGo (evalFn : Board → Player → ℚ) :
    Nat → EngineSt → Nat → XScore → XScore → Rng →
    Option (XScore × List TurnRoute × Rng)
  | 0, _, _, _, _, _ => none
  | fuel + 1, st, depth, alpha, beta, rng => do
    let routes ← st.generateRoutes
    if depth = 0 ∨ routes = [] then
      some (XScore.fin (terminalEval st evalFn), [], rng)
    else
      rootLoop (minimaxGo evalFn fuel) evalFn st depth routes alpha beta
        XScore.ninf [] rng

/-- `minimax(engine, depth, eval_fn, alpha, beta)`. -/
def minimax (evalFn : Board → Player → ℚ) (st : EngineSt) (depth : Nat)
    (alpha beta : XScore) (rng : Rng) :
    Option (XScore × List TurnRoute × Rng) :=
  minimaxGo evalFn (depth + 1) st depth alpha beta rng

/-! ### Theorems -/

theorem gAct_nonneg (f : Fuzzy.RouteFeatures) : 0 ≤ Fuzzy.gAct f :=
  le_max_of_le_left (le_max_of_le_left (le_max_of_le_left
    (le_max_of_le_left (le_max_of_le_left (le_max_left 0 _)))))

theorem oAct_nonneg (f : Fuzzy.RouteFeatures) : 0 ≤ Fuzzy.oAct f :=
  le_max_of_le_left (le_max_of_le_left (le_max_of_le_left
    (le_max_of_le_left (le_max_left 0 _))))

theorem pAct_nonneg (f : Fuzzy.RouteFeatures) : 0 ≤ Fuzzy.pAct f :=
  le_max_of_le_left (le_max_of_le_left (le_max_of_le_left (le_max_left 0 _)))

theorem fuzzyScore_default_eq (f : Fuzzy.RouteFeatures) :
    Fuzzy.fuzzyScore f Fuzzy.defaultOut =
      (Fuzzy.pAct f * 0.2 + Fuzzy.oAct f * 0.5 + Fuzzy.gAct f * 0.85) /
        (Fuzzy.pAct f + Fuzzy.oAct f + Fuzzy.gAct f + Fuzzy.eps) := rfl

/-- C8: if the player has checkers on the bar and `start` is not the bar
slot, `legal_single_targets` returns the empty list (bar entry is
mandatory before any other move). -/
theorem c8_bar_entry_mandatory (b : Board) (player : Player) (startIdx : Nat)
    (dice : List Nat) (hbar : 0 < b.countOnBar player)
    (hstart : startIdx ≠ Board.barIndex player) :
    legalSingleTargets b player startIdx dice = [] := by
  unfold legalSingleTargets
  rw [if_pos ⟨hbar, hstart⟩]

/-- Witness for C8: on the standard setup with one WHITE checker moved to
WHITE's bar slot (index 0), no legal single targets exist from point 13. -/
theorem c8_bar_entry_mandatory_witness :
    legalSingleTargets (standardSetup.put 0 1 Player.WHITE) Player.WHITE 13 [3, 1]
      = [] :=
  c8_bar_entry_mandatory (standardSetup.put 0 1 Player.WHITE) Player.WHITE 13
    [3, 1] (by decide) (by decide)

/-- C1: `generate_all_routes` violates maximal dice usage: on `c1Board`
with dice `[6, 3]` it returns both a route consuming all rolled dice and a
route leaving a die unused. -/
theorem c1_maximal_usage_refuted :
    ((generateAllRoutes c1Board Player.WHITE [6, 3]).getD []).any
        (fun r => r.moves.length == 2) = true ∧
    ((generateAllRoutes c1Board Player.WHITE [6, 3]).getD []).any
        (fun r => r.moves.length == 1) = true := by
  decide

/-- C2: for BLACK, the minimax evaluator's bar/off features and the fuzzy
extractor's `on_bar`/`borne_off` read WHITE's off-tray (slot 25) and
WHITE's bar (slot 0) rather than BLACK's bar slot 26 and off-tray slot 27
defined by the data model (`Board.bar_index` / `Board.off_index`). -/
theorem c2_bar_off_features_misindexed :
    Evaluator.countOnBar c2Board Player.BLACK = 4 ∧
    Board.countOnBar c2Board Player.BLACK = 3 ∧
    Evaluator.countBorneOff c2Board Player.BLACK = 1 ∧
    Board.countOff c2Board Player.BLACK = 2 ∧
    Fuzzy.onBar c2Board Player.BLACK = 4 ∧
    Fuzzy.borneOff c2Board Player.BLACK = 1 := by
  decide

/-- C5 (amended): the defuzzification denominator is strictly positive for
every feature vector (no division-by-zero fault), and with the default
output centers the score always lies in `[0, 0.85)` — the epsilon added to
the denominator shrinks the weighted average toward 0, so the score is not
confined to the convex hull `[0.2, 0.85]` of the centers. -/
theorem c5_fuzzy_score_bounds (f : Fuzzy.RouteFeatures) :
    0 < Fuzzy.pAct f + Fuzzy.oAct f + Fuzzy.gAct f + Fuzzy.eps ∧
    0 ≤ Fuzzy.fuzzyScore f Fuzzy.defaultOut ∧
    Fuzzy.fuzzyScore f Fuzzy.defaultOut < 0.85 := by
  have hp := pAct_nonneg f
  have ho := oAct_nonneg f
  have hg := gAct_nonneg f
  have heps : Fuzzy.eps = 1 / 1000000000 := rfl
  have hden : 0 < Fuzzy.pAct f + Fuzzy.oAct f + Fuzzy.gAct f + Fuzzy.eps := by
    rw [heps]; linarith
  refine ⟨hden, ?_, ?_⟩
  · rw [fuzzyScore_default_eq]
    apply div_nonneg _ (le_of_lt hden)
    nlinarith
  · rw [fuzzyScore_default_eq, div_lt_iff₀ hden]
    rw [heps] at hden ⊢
    nlinarith

/-- Counterexample for C5 as stated: on `c5Feat` a rule of the "Good"
category activates with nonzero strength, yet the returned score is below
the least output center 0.2 (the epsilon denominator drags it to ≈0.04),
so it lies outside the convex hull of the configured centers. -/
theorem c5_hull_counterexample :
    0 < Fuzzy.gAct c5Feat ∧
    Fuzzy.fuzzyScore c5Feat Fuzzy.defaultOut < 0.2 := by
  constructor
  · norm_num [c5Feat, Fuzzy.gAct, Fuzzy.tri, Fuzzy.eps]
  · norm_num [c5Feat, Fuzzy.fuzzyScore, Fuzzy.gAct, Fuzzy.oAct, Fuzzy.pAct,
      Fuzzy.tri, Fuzzy.trap, Fuzzy.eps, Fuzzy.defaultOut]

theorem Board.get_of_lt (b : Board) (i : Nat) (h : i < 28) :
    b.get i = b.points ⟨i, h⟩ := dif_pos h

theorem Board.set_points_of_lt (b : Board) (i : Nat) (h : i < 28) (pt : Point) :
    (b.set i pt).points = Function.update b.points ⟨i, h⟩ pt := by
  unfold Board.set
  rw [dif_pos h]

theorem Board.get_set_self (b : Board) (i : Nat) (h : i < 28) (pt : Point) :
    (b.set i pt).get i = pt := by
  rw [Board.get_of_lt _ _ h, Board.set_points_of_lt _ _ h, Function.update_same]

theorem Board.get_set_other (b : Board) (i j : Nat) (pt : Point) (hij : i ≠ j) :
    (b.set i pt).get j = b.get j := by
  unfold Board.set
  by_cases hi : i < 28
  · rw [dif_pos hi]
    unfold Board.get
    by_cases hj : j < 28
    · rw [dif_pos hj, dif_pos hj]
      exact Function.update_noteq (by simp [Fin.ext_iff, Ne.symm hij]) _ _
    · rw [dif_neg hj, dif_neg hj]
  · rw [dif_neg hi]

theorem Point.remove_one_facts {pt pt' : Point} (h : pt.remove 1 = some pt') :
    1 ≤ pt.checkers ∧ pt'.checkers = pt.checkers - 1 ∧
    (pt'.owner = none ∨ pt'.owner = pt.owner) := by
  unfold Point.remove at h
  split at h
  · exact absurd h (by simp)
  · refine ⟨by omega, ?_, ?_⟩
    · rw [← Option.some_inj.mp h]
    · rw [← Option.some_inj.mp h]
      dsimp only
      split
      · exact Or.inl rfl
      · exact Or.inr rfl

theorem contrib_remove_one {pt pt' : Point} (h : pt.remove 1 = some pt')
    (q : Player) :
    contrib pt q = contrib pt' q + (if pt.owner = some q then 1 else 0) := by
  unfold Point.remove at h
  split at h
  · exact absurd h (by simp)
  · rw [← Option.some_inj.mp h]
    unfold contrib
    dsimp only
    split_ifs with h1 h2 h3 h3 h4 <;> simp_all <;> omega

theorem Point.add_facts {pt pt' : Point} {p : Player} {n : Nat}
    (h : pt.add p n = some pt') :
    pt'.owner = some p ∧
    (pt.owner = none ∧ pt'.checkers = n ∨
     pt.owner = some p ∧ pt'.checkers = pt.checkers + n) := by
  unfold Point.add at h
  split at h
  · rw [← Option.some_inj.mp h]
    exact ⟨rfl, Or.inl ⟨by assumption, rfl⟩⟩
  · rename_i q howner
    split at h
    · rename_i hqp
      rw [← Option.some_inj.mp h]
      subst hqp
      exact ⟨howner, Or.inr ⟨howner, rfl⟩⟩
    · exact absurd h (by simp)

theorem contrib_add {pt pt' : Point} {p : Player} {n : Nat}
    (h : pt.add p n = some pt') (q : Player) :
    contrib pt' q = contrib pt q + (if p = q then n else 0) := by
  unfold Point.add at h
  split at h
  · rename_i howner
    rw [← Option.some_inj.mp h]
    unfold contrib
    simp only [howner]
    split_ifs with h1 h2 h2 <;> simp_all
  · rename_i q1 howner
    split at h
    · rename_i hqp
      rw [← Option.some_inj.mp h]
      subst hqp
      unfold contrib
      simp only [howner]
      split_ifs with h1 h2 h2 <;> simp_all
    · exact absurd h (by simp)

theorem totalFor_set (b : Board) (i : Nat) (h : i < 28) (pt : Point) (q : Player) :
    totalFor (b.set i pt) q + contrib (b.points ⟨i, h⟩) q =
      totalFor b q + contrib pt q := by
  unfold totalFor
  rw [Board.set_points_of_lt b i h pt]
  have hfun : (fun j : Fin 28 => contrib (Function.update b.points ⟨i, h⟩ pt j) q) =
      Function.update (fun j : Fin 28 => contrib (b.points j) q) ⟨i, h⟩
        (contrib pt q) := by
    funext j
    by_cases hj : j = ⟨i, h⟩
    · subst hj
      rw [Function.update_same, Function.update_same]
    · rw [Function.update_noteq hj, Function.update_noteq hj]
  calc (∑ j : Fin 28, contrib (Function.update b.points ⟨i, h⟩ pt j) q) +
        contrib (b.points ⟨i, h⟩) q
      = (∑ j : Fin 28, Function.update
          (fun j : Fin 28 => contrib (b.points j) q) ⟨i, h⟩ (contrib pt q) j) +
        contrib (b.points ⟨i, h⟩) q := by rw [hfun]
    _ = (contrib pt q + ∑ j in Finset.univ \ {⟨i, h⟩},
          contrib (b.points j) q) + contrib (b.points ⟨i, h⟩) q := by
        rw [Finset.sum_update_of_mem (Finset.mem_univ _)]
    _ = (∑ j : Fin 28, contrib (b.points j) q) + contrib pt q := by
        rw [Finset.sum_eq_sum_diff_singleton_add (Finset.mem_univ (⟨i, h⟩ : Fin 28))
          (fun j => contrib (b.points j) q)]
        ring

theorem applySingleMove_anatomy {b : Board} {player : Player} {s e : Nat}
    {b2 : Board} (h : applySingleMove b player s e = some b2) :
    ∃ p1, (b.get s).remove 1 = some p1 ∧
      ((e = Board.offIndex player ∧
        ∃ p2, ((b.set s p1).get e).add player 1 = some p2 ∧
          b2 = (b.set s p1).set e p2) ∨
       (e ≠ Board.offIndex player ∧ (b.set s p1).canHit e player = true ∧
        ∃ pe pb ptF, ((b.set s p1).get e).remove 1 = some pe ∧
          (((b.set s p1).set e pe).get (Board.barIndex (opponent player))).add
            (opponent player) 1 = some pb ∧
          (((((b.set s p1).set e pe).set (Board.barIndex (opponent player)) pb).get
              e).owner = none ∨
           ((((b.set s p1).set e pe).set (Board.barIndex (opponent player)) pb).get
              e).owner = some player) ∧
          ((((b.set s p1).set e pe).set (Board.barIndex (opponent player)) pb).get
            e).add player 1 = some ptF ∧
          b2 = (((b.set s p1).set e pe).set (Board.barIndex (opponent player))
            pb).set e ptF) ∨
       (e ≠ Board.offIndex player ∧ (b.set s p1).canHit e player = false ∧
        ∃ ptF, (((b.set s p1).get e).owner = none ∨
            ((b.set s p1).get e).owner = some player) ∧
          ((b.set s p1).get e).add player 1 = some ptF ∧
          b2 = (b.set s p1).set e ptF)) := by
  unfold applySingleMove at h
  simp only [Option.pure_def, Option.bind_eq_bind, Option.bind_eq_some,
    Option.some.injEq] at h
  obtain ⟨p1, hp1, h⟩ := h
  refine ⟨p1, hp1, ?_⟩
  by_cases hoff : e = Board.offIndex player
  · subst hoff
    rw [if_pos rfl] at h
    simp only [Option.bind_eq_some, Option.some.injEq] at h
    obtain ⟨p2, hp2, hb2⟩ := h
    exact Or.inl ⟨rfl, p2, hp2, hb2.symm⟩
  · rw [if_neg hoff] at h
    by_cases hhit : (b.set s p1).canHit e player = true
    · rw [if_pos hhit] at h
      simp only [Option.bind_eq_some, Option.some.injEq, exists_eq_left,
        exists_eq_left'] at h
      obtain ⟨pe, hpe, pb, hpb, h⟩ := h
      by_cases hguard :
          (((((b.set s p1).set e pe).set (Board.barIndex (opponent player))
            pb).get e).owner = none ∨
           ((((b.set s p1).set e pe).set (Board.barIndex (opponent player))
            pb).get e).owner = some player)
      · rw [if_pos hguard] at h
        simp only [Option.bind_eq_some, Option.some.injEq] at h
        obtain ⟨ptF, hptF, hb2⟩ := h
        exact Or.inr (Or.inl ⟨hoff, hhit, pe, pb, ptF, hpe, hpb, hguard, hptF,
          hb2.symm⟩)
      · rw [if_neg hguard] at h
        exact absurd h (by simp)
    · rw [Bool.not_eq_true] at hhit
      rw [hhit] at h
      simp only [Bool.false_eq_true, if_false, Option.bind_eq_some,
        Option.some.injEq, exists_eq_left, exists_eq_left'] at h
      by_cases hguard : (((b.set s p1).get e).owner = none ∨
          ((b.set s p1).get e).owner = some player)
      · rw [if_pos hguard] at h
        simp only [Option.bind_eq_some, Option.some.injEq] at h
        obtain ⟨ptF, hptF, hb2⟩ := h
        exact Or.inr (Or.inr ⟨hoff, hhit, ptF, hguard, hptF, hb2.symm⟩)
      · rw [if_neg hguard] at h
        exact absurd h (by simp)

theorem Board.barIndex_lt (p : Player) : Board.barIndex p < 28 := by
  unfold Board.barIndex
  split <;> omega

theorem Board.offIndex_lt (p : Player) : Board.offIndex p < 28 := by
  unfold Board.offIndex
  split <;> omega

theorem Board.canHit_facts {b : Board} {i : Nat} {p : Player}
    (h : b.canHit i p = true) :
    (1 ≤ i ∧ i ≤ 24) ∧ (b.get i).owner = some (opponent p) ∧
      (b.get i).checkers = 1 :=
  of_decide_eq_true h

theorem opponent_ne (p : Player) : opponent p ≠ p := by
  cases p <;> simp [opponent]

theorem applySingleMove_totalFor {b b2 : Board} {player : Player} {s e : Nat}
    (happ : applySingleMove b player s e = some b2)
    (hsOwn : (b.get s).owner = some player) (he : e < 28) :
    ∀ q, totalFor b2 q = totalFor b q := by
  intro q
  obtain ⟨p1, hp1, hcase⟩ := applySingleMove_anatomy happ
  have hs : s < 28 := by
    by_contra hs
    unfold Board.get at hsOwn
    rw [dif_neg hs] at hsOwn
    exact Option.noConfusion hsOwn
  have hR1 := contrib_remove_one hp1 q
  rw [hsOwn] at hR1
  rw [Board.get_of_lt b s hs] at hR1
  simp only [Option.some.injEq] at hR1
  have hE1 := totalFor_set b s hs p1 q
  rcases hcase with ⟨hoffe, p2, hp2, hb2⟩ |
    ⟨hoffe, hhit, pe, pb, ptF, hpe, hpb, hguard, hptF, hb2⟩ |
    ⟨hoffe, hhit, ptF, hguard, hptF, hb2⟩
  · subst hb2
    have hR2 := contrib_add hp2 q
    rw [Board.get_of_lt _ e he] at hR2
    have hE2 := totalFor_set (b.set s p1) e he p2 q
    by_cases hpq : player = q
    · rw [if_pos hpq] at hR1 hR2
      omega
    · rw [if_neg hpq] at hR1 hR2
      omega
  · subst hb2
    obtain ⟨-, hownE, -⟩ := Board.canHit_facts hhit
    have hoppb : Board.barIndex (opponent player) < 28 := Board.barIndex_lt _
    have hR2 := contrib_remove_one hpe q
    rw [hownE] at hR2
    rw [Board.get_of_lt _ e he] at hR2
    simp only [Option.some.injEq] at hR2
    have hE2 := totalFor_set (b.set s p1) e he pe q
    have hR3 := contrib_add hpb q
    rw [Board.get_of_lt _ _ hoppb] at hR3
    have hE3 := totalFor_set ((b.set s p1).set e pe)
      (Board.barIndex (opponent player)) hoppb pb q
    have hR4 := contrib_add hptF q
    rw [Board.get_of_lt _ e he] at hR4
    have hE4 := totalFor_set (((b.set s p1).set e pe).set
      (Board.barIndex (opponent player)) pb) e he ptF q
    by_cases hpq : player = q
    · have hoq : ¬ opponent player = q := by
        rw [← hpq]
        exact opponent_ne player
      rw [if_pos hpq] at hR1 hR4
      rw [if_neg hoq] at hR2 hR3
      omega
    · have hoq : opponent player = q := by
        cases player <;> cases q <;> simp_all [opponent]
      rw [if_neg hpq] at hR1 hR4
      rw [if_pos hoq] at hR2 hR3
      omega
  · subst hb2
    have hR4 := contrib_add hptF q
    rw [Board.get_of_lt _ e he] at hR4
    have hE4 := totalFor_set (b.set s p1) e he ptF q
    by_cases hpq : player = q
    · rw [if_pos hpq] at hR1 hR4
      omega
    · rw [if_neg hpq] at hR1 hR4
      omega

theorem legal_facts {b : Board} {player : Player} {s : Nat} {dice : List Nat}
    {d e : Nat} (h : (d, e) ∈ legalSingleTargets b player s dice) :
    (s = Board.barIndex player ∧ 1 ≤ e ∧ e ≤ 24) ∨
    ((1 ≤ s ∧ s ≤ 24) ∧ (b.get s).owner = some player ∧
      (b.get s).checkers ≠ 0 ∧
      (e = Board.offIndex player ∨ (1 ≤ e ∧ e ≤ 24))) := by
  unfold legalSingleTargets at h
  by_cases hbarP : b.countOnBar player > 0 ∧ s ≠ Board.barIndex player
  · rw [if_pos hbarP] at h
    simp at h
  · rw [if_neg hbarP] at h
    dsimp only at h
    by_cases hsbar : s = Board.barIndex player
    · rw [if_pos hsbar] at h
      rw [List.mem_filterMap] at h
      obtain ⟨d0, hd0, hf⟩ := h
      rcases ite_eq_iff.mp hf with ⟨hcond, hsome⟩ | ⟨-, hnone⟩
      · obtain ⟨h1, h2, -⟩ := hcond
        simp only [Option.some.injEq, Prod.mk.injEq] at hsome
        obtain ⟨-, hfe⟩ := hsome
        exact Or.inl ⟨hsbar, by omega, by omega⟩
      · exact Option.noConfusion hnone
    · rw [if_neg hsbar] at h
      by_cases hrange : ¬ (1 ≤ s ∧ s ≤ 24)
      · rw [if_pos hrange] at h
        simp at h
      · rw [if_neg hrange] at h
        by_cases hown : (b.get s).owner ≠ some player ∨ (b.get s).checkers = 0
        · rw [if_pos hown] at h
          simp at h
        · rw [if_neg hown] at h
          push_neg at hrange hown
          rw [List.mem_filterMap] at h
          obtain ⟨d0, hd0, hf⟩ := h
          rcases ite_eq_iff.mp hf with ⟨-, hf2⟩ | ⟨-, hf2⟩
          · rcases ite_eq_iff.mp hf2 with ⟨-, hsome⟩ | ⟨-, hnone⟩
            · simp only [Option.some.injEq, Prod.mk.injEq] at hsome
              obtain ⟨-, hfe⟩ := hsome
              exact Or.inr ⟨hrange, hown.1, hown.2, Or.inl hfe.symm⟩
            · exact Option.noConfusion hnone
          · rcases ite_eq_iff.mp hf2 with ⟨hcond, hsome⟩ | ⟨-, hnone⟩
            · obtain ⟨h1, h2, -⟩ := hcond
              simp only [Option.some.injEq, Prod.mk.injEq] at hsome
              obtain ⟨-, hfe⟩ := hsome
              exact Or.inr ⟨hrange, hown.1, hown.2, Or.inr ⟨by omega, by omega⟩⟩
            · exact Option.noConfusion hnone

theorem applySingleMove_start_checkers {b b2 : Board} {player : Player}
    {s e : Nat} (happ : applySingleMove b player s e = some b2) :
    1 ≤ (b.get s).checkers := by
  obtain ⟨p1, hp1, -⟩ := applySingleMove_anatomy happ
  exact (Point.remove_one_facts hp1).1

theorem legal_totalFor_preserved {b b2 : Board} {player : Player}
    {s d e : Nat} {dice : List Nat}
    (hleg : (d, e) ∈ legalSingleTargets b player s dice)
    (hbar : 0 < (b.get (Board.barIndex player)).checkers →
      (b.get (Board.barIndex player)).owner = some player)
    (happ : applySingleMove b player s e = some b2) :
    ∀ q, totalFor b2 q = totalFor b q := by
  have hfacts := legal_facts hleg
  have hsOwn : (b.get s).owner = some player := by
    rcases hfacts with ⟨hsbar, -, -⟩ | ⟨-, hown, -, -⟩
    · rw [hsbar]
      apply hbar
      have := applySingleMove_start_checkers happ
      rw [hsbar] at this
      omega
    · exact hown
  have he : e < 28 := by
    rcases hfacts with ⟨-, -, he24⟩ | ⟨-, -, -, hoff | ⟨-, he24⟩⟩
    · omega
    · rw [hoff]
      exact Board.offIndex_lt player
    · omega
  exact applySingleMove_totalFor happ hsOwn he

/-- C3 (amended): a legal single move conserves each player's 28-pocket
total, provided the mover's bar slot — when occupied — is owned by the
mover (true of every reachable board) and the move applies without
raising.  On arbitrary 15-15 boards violating that ownership condition the
original claim fails (see the counterexample). -/
theorem c3_checker_conservation (b : Board) (player : Player) (s d e : Nat)
    (dice : List Nat) (b2 : Board)
    (hleg : (d, e) ∈ legalSingleTargets b player s dice)
    (hbar : 0 < (b.get (Board.barIndex player)).checkers →
      (b.get (Board.barIndex player)).owner = some player)
    (happ : applySingleMove b player s e = some b2)
    (htot : ∀ q : Player, totalFor b q = 15) :
    ∀ q : Player, totalFor b2 q = 15 := by
  intro q
  rw [legal_totalFor_preserved hleg hbar happ q]
  exact htot q

/-- Witness for C3: on the standard setup, WHITE's legal move 24→22 with
die 2 applies successfully and leaves both totals at 15. -/
theorem c3_checker_conservation_witness :
    totalFor ((applySingleMove standardSetup Player.WHITE 24 22).getD emptyBoard)
      Player.WHITE = 15 ∧
    totalFor ((applySingleMove standardSetup Player.WHITE 24 22).getD emptyBoard)
      Player.BLACK = 15 := by
  have hsome : (applySingleMove standardSetup Player.WHITE 24 22).isSome = true := by
    decide
  obtain ⟨b2, hb2⟩ := Option.isSome_iff_exists.mp hsome
  rw [hb2]
  simp only [Option.getD_some]
  have hc := c3_checker_conservation standardSetup Player.WHITE 24 2 22 [2] b2
    (by decide) (by decide) hb2 (by intro q; cases q <;> decide)
  exact ⟨hc Player.WHITE, hc Player.BLACK⟩

/-- Counterexample for C3 as stated: `c3Board` gives both players exactly
15 checkers over the 28 pockets, `legal_single_targets` offers WHITE the
bar-entry `(die 1, point 24)` because a stray BLACK checker sits on
WHITE's bar slot, and applying it relocates that BLACK checker into a
WHITE one: WHITE's total becomes 16. -/
theorem c3_checker_conservation_counterexample :
    totalFor c3Board Player.WHITE = 15 ∧ totalFor c3Board Player.BLACK = 15 ∧
    (1, 24) ∈ legalSingleTargets c3Board Player.WHITE 0 [1] ∧
    (applySingleMove c3Board Player.WHITE 0 24).isSome = true ∧
    totalFor ((applySingleMove c3Board Player.WHITE 0 24).getD emptyBoard)
      Player.WHITE = 16 := by
  decide

theorem pointInvP_remove {pt pt' : Point} {n : Nat} (h : pt.remove n = some pt')
    (hinv : pointInvP pt) : pointInvP pt' := by
  unfold Point.remove at h
  split at h
  · exact absurd h (by simp)
  · rw [← Option.some_inj.mp h]
    unfold pointInvP at *
    dsimp only
    split_ifs with h0
    · simp [h0]
    · refine ⟨fun hc => absurd hc h0, fun how => ?_⟩
      have := hinv.mpr how
      omega

theorem pointInvP_add {pt pt' : Point} {p : Player} {n : Nat}
    (h : pt.add p n = some pt') (hn : 1 ≤ n) (_hinv : pointInvP pt) :
    pointInvP pt' := by
  obtain ⟨howner, hcase⟩ := Point.add_facts h
  unfold pointInvP
  rw [howner]
  rcases hcase with ⟨-, hc⟩ | ⟨-, hc⟩ <;> rw [hc] <;>
    exact ⟨fun h0 => absurd h0 (by omega), fun hx => Option.noConfusion hx⟩

theorem pointInv_set {b : Board} {i : Nat} {pt : Point} (hb : pointInv b)
    (hpt : pointInvP pt) : pointInv (b.set i pt) := by
  intro j
  unfold Board.set
  split
  · rename_i hi
    dsimp only
    by_cases hj : j = ⟨i, hi⟩
    · rw [hj, Function.update_same]
      exact hpt
    · rw [Function.update_noteq hj]
      exact hb j
  · exact hb j

theorem pointInv_get {b : Board} (hb : pointInv b) (i : Nat) :
    pointInvP (b.get i) := by
  unfold Board.get
  split
  · exact hb _
  · exact ⟨fun _ => rfl, fun _ => rfl⟩

theorem applySingleMove_pointInv {b b2 : Board} {player : Player} {s e : Nat}
    (happ : applySingleMove b player s e = some b2) (hb : pointInv b) :
    pointInv b2 := by
  obtain ⟨p1, hp1, hcase⟩ := applySingleMove_anatomy happ
  have hinv1 : pointInv (b.set s p1) :=
    pointInv_set hb (pointInvP_remove hp1 (pointInv_get hb s))
  rcases hcase with ⟨-, p2, hp2, hb2⟩ |
    ⟨-, -, pe, pb, ptF, hpe, hpb, -, hptF, hb2⟩ | ⟨-, -, ptF, -, hptF, hb2⟩
  · subst hb2
    exact pointInv_set hinv1 (pointInvP_add hp2 (le_refl 1) (pointInv_get hinv1 _))
  · subst hb2
    have hinv2 : pointInv ((b.set s p1).set e pe) :=
      pointInv_set hinv1 (pointInvP_remove hpe (pointInv_get hinv1 _))
    have hinv3 : pointInv (((b.set s p1).set e pe).set
        (Board.barIndex (opponent player)) pb) :=
      pointInv_set hinv2 (pointInvP_add hpb (le_refl 1) (pointInv_get hinv2 _))
    exact pointInv_set hinv3 (pointInvP_add hptF (le_refl 1) (pointInv_get hinv3 _))
  · subst hb2
    exact pointInv_set hinv1 (pointInvP_add hptF (le_refl 1) (pointInv_get hinv1 _))

theorem Point.add_checkers_ge {pt pt' : Point} {p : Player}
    (h : pt.add p 1 = some pt') (hinv : pointInvP pt) :
    pt.checkers ≤ pt'.checkers := by
  obtain ⟨-, hcase⟩ := Point.add_facts h
  rcases hcase with ⟨hnone, hc⟩ | ⟨-, hc⟩
  · have h0 := hinv.mpr hnone
    omega
  · omega

theorem Board.barIndex_val (p : Player) :
    Board.barIndex p = 0 ∨ Board.barIndex p = 26 := by
  unfold Board.barIndex
  split
  · exact Or.inl rfl
  · exact Or.inr rfl

theorem Board.offIndex_val (p : Player) :
    Board.offIndex p = 25 ∨ Board.offIndex p = 27 := by
  unfold Board.offIndex
  split
  · exact Or.inl rfl
  · exact Or.inr rfl

theorem Board.set_out_of_range (b : Board) (i : Nat) (pt : Point)
    (h : ¬ i < 28) : b.set i pt = b := by
  unfold Board.set
  rw [dif_neg h]

theorem applySingleMove_countOff_mono {b b2 : Board} {player : Player}
    {s e : Nat} (happ : applySingleMove b player s e = some b2)
    (hs : s = Board.barIndex player ∨ (1 ≤ s ∧ s ≤ 24))
    (he : e = Board.offIndex player ∨ (1 ≤ e ∧ e ≤ 24))
    (hb : pointInv b) :
    ∀ q, b.countOff q ≤ b2.countOff q := by
  intro q
  obtain ⟨p1, hp1, hcase⟩ := applySingleMove_anatomy happ
  have hoffq := Board.offIndex_val q
  have hbarP := Board.barIndex_val player
  have hsne : s ≠ Board.offIndex q := by
    rcases hs with h | h <;> omega
  unfold Board.countOff
  have g1 : (b.set s p1).get (Board.offIndex q) = b.get (Board.offIndex q) :=
    Board.get_set_other _ _ _ _ hsne
  have hinv1 : pointInv (b.set s p1) :=
    pointInv_set hb (pointInvP_remove hp1 (pointInv_get hb s))
  rcases hcase with ⟨heoff, p2, hp2, hb2⟩ |
    ⟨-, hhit, pe, pb, ptF, hpe, hpb, -, hptF, hb2⟩ |
    ⟨heoff, -, ptF, -, hptF, hb2⟩
  · subst hb2
    by_cases hq : e = Board.offIndex q
    · have hlt : e < 28 := by
        rw [heoff]
        exact Board.offIndex_lt player
      rw [← hq, Board.get_set_self _ _ hlt]
      rw [← hq] at g1
      rw [← g1]
      exact Point.add_checkers_ge hp2 (pointInv_get hinv1 e)
    · rw [Board.get_set_other _ _ _ _ hq, g1]
  · subst hb2
    obtain ⟨⟨he1, he24⟩, -, -⟩ := Board.canHit_facts hhit
    have hene : e ≠ Board.offIndex q := by omega
    have hbarne : Board.barIndex (opponent player) ≠ Board.offIndex q := by
      have := Board.barIndex_val (opponent player)
      omega
    rw [Board.get_set_other _ _ _ _ hene,
      Board.get_set_other _ _ _ _ hbarne,
      Board.get_set_other _ _ _ _ hene, g1]
  · subst hb2
    have he24 : 1 ≤ e ∧ e ≤ 24 := by
      rcases he with h | h
      · exact absurd h heoff
      · exact h
    have hene : e ≠ Board.offIndex q := by omega
    rw [Board.get_set_other _ _ _ _ hene, g1]

theorem slotOwn_set {b : Board} {i : Nat} {pt : Point} {idx : Nat} {p : Player}
    (hold : (b.get idx).owner = none ∨ (b.get idx).owner = some p)
    (hpt : pt.owner = none ∨ pt.owner = some p ∨ pt.owner = (b.get i).owner ∨
      i ≠ idx) :
    ((b.set i pt).get idx).owner = none ∨
      ((b.set i pt).get idx).owner = some p := by
  by_cases hi : i = idx
  · subst hi
    by_cases hlt : i < 28
    · rw [Board.get_set_self _ _ hlt]
      rcases hpt with h | h | h | h
      · exact Or.inl h
      · exact Or.inr h
      · rw [h]
        exact hold
      · exact absurd rfl h
    · rw [Board.set_out_of_range _ _ _ hlt]
      exact hold
  · rw [Board.get_set_other _ _ _ _ hi]
    exact hold

theorem applySingleMove_barOffOwn {b b2 : Board} {player : Player} {s e : Nat}
    (happ : applySingleMove b player s e = some b2)
    (he : e = Board.offIndex player ∨ (1 ≤ e ∧ e ≤ 24))
    (hbo : barOffOwn b) : barOffOwn b2 := by
  obtain ⟨p1, hp1, hcase⟩ := applySingleMove_anatomy happ
  obtain ⟨-, -, hremOwn⟩ := Point.remove_one_facts hp1
  intro p
  obtain ⟨hbarp, hoffp⟩ := hbo p
  have hrem : p1.owner = none ∨ p1.owner = some p ∨ p1.owner = (b.get s).owner ∨
      s ≠ Board.barIndex p := by
    rcases hremOwn with h | h
    · exact Or.inl h
    · exact Or.inr (Or.inr (Or.inl h))
  have hrem2 : p1.owner = none ∨ p1.owner = some p ∨ p1.owner = (b.get s).owner ∨
      s ≠ Board.offIndex p := by
    rcases hremOwn with h | h
    · exact Or.inl h
    · exact Or.inr (Or.inr (Or.inl h))
  have hbar1 := slotOwn_set hbarp hrem
  have hoff1 := slotOwn_set hoffp hrem2
  have hbarv := Board.barIndex_val p
  have hoffv := Board.offIndex_val p
  have hbarvp := Board.barIndex_val player
  have hoffvp := Board.offIndex_val player
  rcases hcase with ⟨heoff, p2, hp2, hb2⟩ |
    ⟨-, hhit, pe, pb, ptF, hpe, hpb, -, hptF, hb2⟩ |
    ⟨heoff, -, ptF, -, hptF, hb2⟩
  · subst hb2
    have haddOwn := (Point.add_facts hp2).1
    constructor
    · refine slotOwn_set hbar1 (Or.inr (Or.inr (Or.inr ?_)))
      rw [heoff]
      omega
    · refine slotOwn_set hoff1 ?_
      by_cases hpp : p = player
      · subst hpp
        exact Or.inr (Or.inl haddOwn)
      · refine Or.inr (Or.inr (Or.inr ?_))
        rw [heoff]
        unfold Board.offIndex
        cases p <;> cases player <;> simp_all
  · subst hb2
    obtain ⟨⟨he1, he24⟩, -, -⟩ := Board.canHit_facts hhit
    obtain ⟨-, -, hpeOwn⟩ := Point.remove_one_facts hpe
    have hpbOwn := (Point.add_facts hpb).1
    have hptFOwn := (Point.add_facts hptF).1
    have hene_bar : e ≠ Board.barIndex p := by omega
    have hene_off : e ≠ Board.offIndex p := by omega
    have hbar2 : (((b.set s p1).set e pe).get (Board.barIndex p)).owner = none ∨
        (((b.set s p1).set e pe).get (Board.barIndex p)).owner = some p :=
      slotOwn_set hbar1 (Or.inr (Or.inr (Or.inr hene_bar)))
    have hoff2 : (((b.set s p1).set e pe).get (Board.offIndex p)).owner = none ∨
        (((b.set s p1).set e pe).get (Board.offIndex p)).owner = some p :=
      slotOwn_set hoff1 (Or.inr (Or.inr (Or.inr hene_off)))
    have hbar3 : ((((b.set s p1).set e pe).set
        (Board.barIndex (opponent player)) pb).get (Board.barIndex p)).owner =
          none ∨
        ((((b.set s p1).set e pe).set
          (Board.barIndex (opponent player)) pb).get (Board.barIndex p)).owner =
          some p := by
      refine slotOwn_set hbar2 ?_
      by_cases hpo : p = opponent player
      · subst hpo
        exact Or.inr (Or.inl hpbOwn)
      · refine Or.inr (Or.inr (Or.inr ?_))
        unfold Board.barIndex
        cases p <;> cases player <;> simp_all [opponent]
    have hoff3 : ((((b.set s p1).set e pe).set
        (Board.barIndex (opponent player)) pb).get (Board.offIndex p)).owner =
          none ∨
        ((((b.set s p1).set e pe).set
          (Board.barIndex (opponent player)) pb).get (Board.offIndex p)).owner =
          some p := by
      refine slotOwn_set hoff2 (Or.inr (Or.inr (Or.inr ?_)))
      have := Board.barIndex_val (opponent player)
      omega
    exact ⟨slotOwn_set hbar3 (Or.inr (Or.inr (Or.inr hene_bar))),
      slotOwn_set hoff3 (Or.inr (Or.inr (Or.inr hene_off)))⟩
  · subst hb2
    have he24 : 1 ≤ e ∧ e ≤ 24 := by
      rcases he with h | h
      · exact absurd h heoff
      · exact h
    have hene_bar : e ≠ Board.barIndex p := by omega
    have hene_off : e ≠ Board.offIndex p := by omega
    exact ⟨slotOwn_set hbar1 (Or.inr (Or.inr (Or.inr hene_bar))),
      slotOwn_set hoff1 (Or.inr (Or.inr (Or.inr hene_off)))⟩

theorem legalStep_SInv {b b2 : Board} (hstep : LegalStep b b2)
    (hinv : SInv b) : SInv b2 := by
  obtain ⟨p, s, dice, d, e, hleg, happ⟩ := hstep
  obtain ⟨hpi, htot, hbo⟩ := hinv
  have hfacts := legal_facts hleg
  have hs : s = Board.barIndex p ∨ (1 ≤ s ∧ s ≤ 24) := by
    rcases hfacts with ⟨hsbar, -⟩ | ⟨hr, -⟩
    · exact Or.inl hsbar
    · exact Or.inr hr
  have he : e = Board.offIndex p ∨ (1 ≤ e ∧ e ≤ 24) := by
    rcases hfacts with ⟨-, he1, he24⟩ | ⟨-, -, -, hoff | he24⟩
    · exact Or.inr ⟨he1, he24⟩
    · exact Or.inl hoff
    · exact Or.inr he24
  have hbar : 0 < (b.get (Board.barIndex p)).checkers →
      (b.get (Board.barIndex p)).owner = some p := by
    intro hpos
    have hip := pointInv_get hpi (Board.barIndex p)
    rcases (hbo p).1 with hnone | hsome
    · have := hip.mpr hnone
      omega
    · exact hsome
  refine ⟨applySingleMove_pointInv happ hpi, ?_, applySingleMove_barOffOwn happ he hbo⟩
  intro q
  rw [legal_totalFor_preserved hleg hbar happ q]
  exact htot q

set_option maxHeartbeats 1600000 in
theorem reachable_sinv : ∀ b : Board, Reachable b → SInv b := by
  intro b h
  induction h with
  | base => exact ⟨by decide, by intro q; cases q <;> decide, by decide⟩
  | step _ hstep ih => exact legalStep_SInv hstep ih

theorem checkers_le_total {b : Board} (hpi : pointInv b)
    (htot : ∀ q : Player, totalFor b q = 15) (i : Nat) :
    (b.get i).checkers ≤ 15 := by
  by_cases hlt : i < 28
  · rw [Board.get_of_lt b i hlt]
    cases howner : (b.points ⟨i, hlt⟩).owner with
    | none =>
      have h0 := (hpi ⟨i, hlt⟩).mpr howner
      omega
    | some q =>
      have hle : contrib (b.points ⟨i, hlt⟩) q ≤
          ∑ j : Fin 28, contrib (b.points j) q :=
        Finset.single_le_sum (fun j _ => Nat.zero_le (contrib (b.points j) q))
          (Finset.mem_univ (⟨i, hlt⟩ : Fin 28))
      have hsum : totalFor b q = ∑ j : Fin 28, contrib (b.points j) q := rfl
      rw [← hsum, htot q] at hle
      unfold contrib at hle
      rw [howner, if_pos rfl] at hle
      exact hle
  · unfold Board.get
    rw [dif_neg hlt]
    exact Nat.zero_le _

/-- C4: every board reachable from the standard setup by legal single
moves satisfies `checkers == 0 ⇔ owner == none` at every pocket (mixed
ownership is unrepresentable: a `Point` stores at most one owner), and
`Point.add` (with its positive checker count) and `Point.remove` each
preserve the per-point invariant. -/
theorem c4_point_exclusivity :
    (∀ b : Board, Reachable b → ∀ i : Fin 28,
      ((b.points i).checkers = 0 ↔ (b.points i).owner = none)) ∧
    (∀ (pt pt' : Point) (p : Player) (n : Nat), 1 ≤ n → pointInvP pt →
      pt.add p n = some pt' → pointInvP pt') ∧
    (∀ (pt pt' : Point) (n : Nat), pointInvP pt → pt.remove n = some pt' →
      pointInvP pt') :=
  ⟨fun b hr i => (reachable_sinv b hr).1 i,
   fun _ _ _ _ hn hinv h => pointInvP_add h hn hinv,
   fun _ _ _ hinv h => pointInvP_remove h hinv⟩

/-- Witness for C4: the invariant holds at pocket 24 of the standard
setup, and `Point.add`/`Point.remove` preserve it on a concrete point. -/
theorem c4_point_exclusivity_witness :
    ((standardSetup.points ⟨24, by omega⟩).checkers = 0 ↔
      (standardSetup.points ⟨24, by omega⟩).owner = none) ∧
    pointInvP ⟨3, some Player.WHITE⟩ :=
  ⟨c4_point_exclusivity.1 standardSetup Reachable.base ⟨24, by omega⟩,
   c4_point_exclusivity.2.1 ⟨2, some Player.WHITE⟩ ⟨3, some Player.WHITE⟩
     Player.WHITE 1 (by decide) (by decide) (by decide)⟩

/-- C7: on every reachable engine state, `has_won p` holds iff `p`'s
off-tray slot holds exactly 15 checkers (the code tests `>= 15`, and the
reachable-state invariants bound the slot by 15), and no legal single move
ever decreases an off-tray count. -/
theorem c7_win_iff_off15 (st : EngineSt) (hreach : Reachable st.board) :
    (∀ p : Player, st.hasWon p = true ↔ st.board.countOff p = 15) ∧
    (∀ (p player : Player) (s : Nat) (dice : List Nat) (d e : Nat) (b2 : Board),
      (d, e) ∈ legalSingleTargets st.board player s dice →
      applySingleMove st.board player s e = some b2 →
      st.board.countOff p ≤ b2.countOff p) := by
  obtain ⟨hpi, htot, hbo⟩ := reachable_sinv st.board hreach
  constructor
  · intro p
    have hle : st.board.countOff p ≤ 15 := checkers_le_total hpi htot _
    unfold EngineSt.hasWon
    rw [decide_eq_true_eq]
    omega
  · intro p player s dice d e b2 hleg happ
    have hfacts := legal_facts hleg
    have hs : s = Board.barIndex player ∨ (1 ≤ s ∧ s ≤ 24) := by
      rcases hfacts with ⟨hsbar, -⟩ | ⟨hr, -⟩
      · exact Or.inl hsbar
      · exact Or.inr hr
    have he : e = Board.offIndex player ∨ (1 ≤ e ∧ e ≤ 24) := by
      rcases hfacts with ⟨-, he1, he24⟩ | ⟨-, -, -, hoff | he24⟩
      · exact Or.inr ⟨he1, he24⟩
      · exact Or.inl hoff
      · exact Or.inr he24
    exact applySingleMove_countOff_mono happ hs he hpi p

/-- Witness for C7: on the freshly initialised engine, WHITE has not won
and indeed `count_off` is not 15. -/
theorem c7_win_iff_off15_witness :
    engineInit.hasWon Player.WHITE = true ↔
      engineInit.board.countOff Player.WHITE = 15 :=
  (c7_win_iff_off15 engineInit Reachable.base).1 Player.WHITE

/-- C9: applying a route move whose die value is absent from the active
dice never raises from the removal: the `try/except`-guarded removal
leaves the dice multiset unchanged, while the board mutation of the move
is still performed (the step fails only if the board mutation itself
raises). -/
theorem c9_missing_die_skipped (st : EngineSt) (m : Move)
    (h : m.die ∉ st.dice) :
    diceRemove st.dice m.die = st.dice ∧
    applyRouteStep st m =
      (applySingleMove st.board st.turn m.start m.stop).map
        (fun b2 => { board := b2, turn := st.turn, dice := st.dice }) := by
  have hd : diceRemove st.dice m.die = st.dice := by
    unfold diceRemove
    rw [if_neg h]
  refine ⟨hd, ?_⟩
  unfold applyRouteStep
  cases happ : applySingleMove st.board st.turn m.start m.stop with
  | none => simp [happ]
  | some b2 => simp [happ, hd]

/-- Witness for C9: on the initial engine (empty dice list), the step for
move 24→23 with die 1 performs the board mutation and leaves the dice
empty. -/
theorem c9_missing_die_skipped_witness :
    diceRemove engineInit.dice (Move.mk 24 23 1).die = engineInit.dice ∧
    applyRouteStep engineInit (Move.mk 24 23 1) =
      (applySingleMove engineInit.board engineInit.turn (Move.mk 24 23 1).start
        (Move.mk 24 23 1).stop).map
        (fun b2 => { board := b2, turn := engineInit.turn,
                     dice := engineInit.dice }) :=
  c9_missing_die_skipped engineInit (Move.mk 24 23 1) (by decide)

/-- C6: whenever route generation does not raise, the minimax search at
`depth = 0` returns exactly the static evaluation of the root board for
the side to move, with an empty principal variation, leaving the
randomness stream untouched. -/
theorem c6_depth_zero_search (st : EngineSt) (alpha beta : XScore) (rng : Rng)
    (routes : List TurnRoute) (hro : st.generateRoutes = some routes) :
    minimax (fun b p => Evaluator.evaluate b p defaultWeights) st 0 alpha beta
        rng =
      some (XScore.fin (Evaluator.evaluate st.board st.turn defaultWeights),
        ([] : List TurnRoute), rng) := by
  unfold minimax minimaxGo
  rw [hro]
  simp only [Option.bind_eq_bind, Option.some_bind]
  rw [if_pos (Or.inl trivial)]
  rfl

/-- Witness for C6: depth-0 search on the freshly initialised engine. -/
theorem c6_depth_zero_search_witness :
    minimax (fun b p => Evaluator.evaluate b p defaultWeights) engineInit 0
        XScore.ninf XScore.pinf ⟨[], []⟩ =
      some (XScore.fin (Evaluator.evaluate engineInit.board engineInit.turn
        defaultWeights), ([] : List TurnRoute), ⟨[], []⟩) :=
  c6_depth_zero_search engineInit XScore.ninf XScore.pinf ⟨[], []⟩
    [⟨[]⟩] (by decide)


theorem legalSingleTargetsTr_eq (b : Board) (player : Player) (startIdx : Nat)
    (dice : List Nat) :
    legalSingleTargetsTr b player startIdx dice =
      (legalSingleTargets b player startIdx dice, b) := by
  unfold legalSingleTargetsTr legalSingleTargets
  by_cases h1 : b.countOnBar player > 0 ∧ startIdx ≠ Board.barIndex player
  · rw [if_pos h1, if_pos h1]
  · rw [if_neg h1, if_neg h1]
    dsimp only
    by_cases h2 : startIdx = Board.barIndex player
    · rw [if_pos h2, if_pos h2]
    · rw [if_neg h2, if_neg h2]
      by_cases h3 : ¬ (1 ≤ startIdx ∧ startIdx ≤ 24)
      · rw [if_pos h3, if_pos h3]
      · rw [if_neg h3, if_neg h3]
        by_cases h4 : (b.get startIdx).owner ≠ some player ∨
            (b.get startIdx).checkers = 0
        · rw [if_pos h4, if_pos h4]
        · rw [if_neg h4, if_neg h4]

theorem foldlM_board_inv {α σ : Type} {g : σ × Board → α → Option (σ × Board)}
    (hg : ∀ sb a out, g sb a = some out → out.2 = sb.2) :
    ∀ (l : List α) (sb out : σ × Board),
      l.foldlM g sb = some out → out.2 = sb.2 := by
  intro l
  induction l with
  | nil =>
    intro sb out h
    have := Option.some_inj.mp h
    rw [← this]
  | cons a rest ih =>
    intro sb out h
    rw [List.foldlM_cons, Option.bind_eq_bind, Option.bind_eq_some] at h
    obtain ⟨mid, hmid, hrest⟩ := h
    rw [ih mid out hrest]
    exact hg sb a mid hmid

theorem backtrackTr_board (player : Player) (fuel : Nat) (b : Board)
    (remaining : List Nat) (acc : List Move) (rs : List TurnRoute) (b2 : Board)
    (h : backtrackTr player fuel b remaining acc = some (rs, b2)) : b2 = b := by
  unfold backtrackTr at h
  by_cases hrem : remaining = []
  · rw [if_pos hrem] at h
    exact congrArg Prod.snd (Option.some_inj.mp h.symm)
  · rw [if_neg hrem] at h
    cases fuel with
    | zero => exact congrArg Prod.snd (Option.some_inj.mp h.symm)
    | succ fuel2 =>
      simp only [Option.bind_eq_bind, Option.bind_eq_some] at h
      obtain ⟨mid, hmid, hrest⟩ := h
      have hb : mid.2 = b := by
        refine foldlM_board_inv ?_ _ _ _ hmid
        rintro ⟨st0, b0⟩ start out hg
        dsimp only at hg
        refine foldlM_board_inv ?_ _ _ _ hg
        rintro ⟨⟨mask, ua, rts⟩, bx⟩ ⟨die, e⟩ out2 hgg
        dsimp only at hgg
        split at hgg
        · rw [← Option.some_inj.mp hgg]
        · simp only [Option.pure_def, Option.bind_eq_bind,
            Option.bind_eq_some] at hgg
          obtain ⟨bax, -, ⟨rsx, bdx⟩, -, hgg⟩ := hgg
          rw [← Option.some_inj.mp hgg]
      rcases mid with ⟨⟨mask, usedAny, routes⟩, bmid⟩
      dsimp only at hrest hb
      subst hb
      split at hrest
      · exact congrArg Prod.snd (Option.some_inj.mp hrest.symm)
      · exact congrArg Prod.snd (Option.some_inj.mp hrest.symm)

/-- C10: the query functions do not mutate the board they are given.  In
the state-threaded embedding, `legal_single_targets` hands back exactly
the board it received (it only reads), and `generate_all_routes` —
which applies single moves only to clones — finishes with the caller's
board unchanged. -/
theorem c10_queries_leave_board_unchanged (b : Board) (player : Player)
    (startIdx : Nat) (dice : List Nat) :
    (legalSingleTargetsTr b player startIdx dice).2 = b ∧
    (∀ (rs : List TurnRoute) (b2 : Board),
      generateAllRoutesTr b player dice = some (rs, b2) → b2 = b) := by
  constructor
  · rw [legalSingleTargetsTr_eq]
  · intro rs b2 h
    unfold generateAllRoutesTr at h
    simp only [Option.bind_eq_bind, Option.bind_eq_some] at h
    obtain ⟨⟨rs0, b0⟩, hbt, hpure⟩ := h
    dsimp only at hpure
    have hpair := Option.some_inj.mp hpure
    have hb0 := congrArg Prod.snd hpair
    dsimp only at hb0
    rw [← hb0]
    exact backtrackTr_board player dice.length b dice [] rs0 b0 hbt

/-- Witness for C10: both queries leave the standard setup untouched. -/
theorem c10_queries_leave_board_unchanged_witness :
    (legalSingleTargetsTr standardSetup Player.WHITE 24 [3]).2 = standardSetup ∧
    ((generateAllRoutesTr standardSetup Player.WHITE []).getD
      ([], emptyBoard)).2 = standardSetup := by
  constructor
  · exact (c10_queries_leave_board_unchanged standardSetup Player.WHITE 24 [3]).1
  · cases hgen : generateAllRoutesTr standardSetup Player.WHITE [] with
    | none =>
      have hsome : (generateAllRoutesTr standardSetup Player.WHITE []).isSome
          = true := by decide
      rw [hgen] at hsome
      exact absurd hsome (by simp)
    | some p =>
      rcases p with ⟨rs0, b0⟩
      have hb := (c10_queries_leave_board_unchanged standardSetup Player.WHITE
        24 []).2 rs0 b0 hgen
      simp only [Option.getD_some]
      exact hb
